import Mathlib

/-!
Verification development for the survey-response aggregation logic of the
SSES survey dashboard (source files `src/pages/Emotion_Resilience.py`,
`src/pages/Emotional_Resilience.py`, `src/preprocess.py`).

Cell values of the loaded CSV are modelled by `RawValue`, a dataframe by
`Dataset` (an ordered association list of named columns), and the pandas
operations used by the pages — `pd.to_numeric(errors="coerce")`,
`median`, `fillna`, `isin([4,5]).mean()`, `idxmax`, `idxmin`,
`value_counts(normalize=True).reindex([1,2,3,4,5], fill_value=0)`,
`corr`, `unstack().sort_values().drop_duplicates()`, and
`sort_values(by=..., ascending=False)` — by executable functions over `ℚ`
(exact arithmetic in place of IEEE floats; every claim below concerns
values and comparisons that floats of this size represent exactly, except
where a tolerance is part of the claim itself).
-/

/-- Raw cell value of a loaded CSV: a numeric literal, a non-numeric
string, or a missing entry (NaN after loading). -/
inductive RawValue where
  | num (q : ℚ)
  | str (s : String)
  | missing
deriving DecidableEq

/-- Model of `pd.to_numeric(..., errors="coerce")` on one cell: numeric
values survive, anything else becomes missing. -/
def toNumeric : RawValue → Option ℚ
  | .num q => some q
  | .str _ => none
  | .missing => none

/-- Model of a loaded dataframe: an ordered list of named columns. -/
structure Dataset where
  cols : List (String × List RawValue)
deriving DecidableEq

/-- Column names of the dataframe, in order (`df.columns`). -/
def Dataset.columns (df : Dataset) : List String :=
  df.cols.map Prod.fst

/-- Look up a column by name (first occurrence); `[]` when absent. -/
def getCol (df : Dataset) (c : String) : List RawValue :=
  match df.cols.find? (fun p => p.1 == c) with
  | some p => p.2
  | none => []

/-- The fixed expected attribute list `objective3_cols`, identical in both
page files. -/
def objective3Cols : List String :=
  ["calm_under_pressure", "emotional_control", "adaptability",
   "self_motivation", "task_persistence", "teamwork"]

/-- Model of `available_cols = [c for c in objective3_cols if c in
df.columns]` (line 77 of `Emotion_Resilience.py`, line 43 of
`Emotional_Resilience.py`): the sublist of expected names present in the
dataset, in expected order. -/
def availableCols (df : Dataset) : List String :=
  objective3Cols.filter (fun c => decide (c ∈ df.columns))

/-- Coerce a whole column (`pd.to_numeric` applied column-wise). -/
def coerceCol (v : List RawValue) : List (Option ℚ) :=
  v.map toNumeric

/-- Pandas median of a list of rationals: middle element of the sorted
list for odd length, average of the two middle elements for even length,
undefined (`none`, i.e. NaN) for the empty list. -/
def medianQ (l : List ℚ) : Option ℚ :=
  let s := l.insertionSort (· ≤ ·)
  let n := s.length
  if n = 0 then none
  else if n % 2 = 1 then s[n / 2]?
  else do
    let a ← s[n / 2 - 1]?
    let b ← s[n / 2]?
    pure ((a + b) / 2)

/-- Model of `col.fillna(col.median())` (line 85 of
`Emotion_Resilience.py`): replace missing entries by the median of the
non-missing entries; when there is no non-missing entry the median is
itself NaN and `fillna` leaves the column unchanged. -/
def imputeColumn (v : List (Option ℚ)) : List (Option ℚ) :=
  match medianQ (v.filterMap id) with
  | none => v
  | some m => v.map (fun o => some (o.getD m))

/-- Coerced-and-imputed attribute column (lines 84 to 85 of
`Emotion_Resilience.py`). -/
def imputedCol (df : Dataset) (c : String) : List (Option ℚ) :=
  imputeColumn (coerceCol (getCol df c))

/-- Model of one entry of `df[available_cols].isin([4, 5]).mean()`
(line 91): the fraction of rows whose value is exactly 4 or 5, over all
rows (a missing row counts as not-in). -/
def agreePropCol (v : List (Option ℚ)) : ℚ :=
  (v.countP (fun o => decide (o = some 4 ∨ o = some 5)) : ℚ) / (v.length : ℚ)

/-- Per-attribute agreement proportion of the page. -/
def agreeProp (df : Dataset) (c : String) : ℚ :=
  agreePropCol (imputedCol df c)

/-- Pandas column mean: skips missing values; `none` models the NaN mean
of an all-missing column. -/
def meanScoreCol (v : List (Option ℚ)) : Option ℚ :=
  let nm := v.filterMap id
  if nm.isEmpty then none else some (nm.sum / (nm.length : ℚ))

/-- Mean score of an attribute column after coercion and imputation
(`mean_scores`, line 104). -/
def meanKey (df : Dataset) (c : String) : Option ℚ :=
  meanScoreCol (imputedCol df c)

/-- Model of `value_counts(normalize=True).reindex([1,2,3,4,5],
fill_value=0)` at one scale value: relative frequency of `val` among the
non-missing entries, 0 for an empty column (the reindex fill). -/
def freqOf (v : List (Option ℚ)) (val : ℚ) : ℚ :=
  let nm := v.filterMap id
  if nm.isEmpty then 0 else (nm.countP (fun x => decide (x = val)) : ℚ) / (nm.length : ℚ)

/-- The `get_sentiment` triple (disagree, neutral, agree) of lines 158 to
163 of `Emotion_Resilience.py`. -/
def sentimentCol (v : List (Option ℚ)) : ℚ × ℚ × ℚ :=
  (-(freqOf v 1 + freqOf v 2) * 100,
   freqOf v 3 * 100,
   (freqOf v 4 + freqOf v 5) * 100)

/-- Scan underlying pandas `Series.idxmax`: the running best is replaced
only on a strictly larger value, so the first maximum wins. -/
def idxmaxAux (best : String × ℚ) : List (String × ℚ) → String × ℚ
  | [] => best
  | p :: ps => if best.2 < p.2 then idxmaxAux p ps else idxmaxAux best ps

/-- Model of `Series.idxmax` (line 95): label of the first maximal
value. -/
def seriesIdxmax : List (String × ℚ) → Option String
  | [] => none
  | p :: ps => some (idxmaxAux p ps).1

/-- Scan underlying pandas `Series.idxmin`: the running best is replaced
only on a strictly smaller value, so the first minimum wins. -/
def idxminAux (best : String × ℚ) : List (String × ℚ) → String × ℚ
  | [] => best
  | p :: ps => if p.2 < best.2 then idxminAux p ps else idxminAux best ps

/-- Model of `Series.idxmin` (line 96): label of the first minimal
value. -/
def seriesIdxmin : List (String × ℚ) → Option String
  | [] => none
  | p :: ps => some (idxminAux p ps).1

/-- Key order used by `sort_values(by="Mean Score", ascending=False)`:
larger values first, missing (NaN) keys last. -/
def keyBefore : Option ℚ → Option ℚ → Bool
  | some x, some y => decide (y ≤ x)
  | some _, none => true
  | none, some _ => false
  | none, none => true

/-- Row order of `tree_data` after sorting: attribute `a` may come before
attribute `b`. -/
def treeRel (df : Dataset) (a b : String) : Prop :=
  keyBefore (meanKey df a) (meanKey df b) = true

instance treeRelDec (df : Dataset) : DecidableRel (treeRel df) :=
  fun x y => inferInstanceAs (Decidable (keyBefore (meanKey df x) (meanKey df y) = true))

instance treeRelTotal (df : Dataset) : IsTotal String (treeRel df) := by
  constructor
  intro a b
  unfold treeRel
  generalize meanKey df a = ka
  generalize meanKey df b = kb
  rcases ka with _ | x <;> rcases kb with _ | y <;> simp [keyBefore]
  exact le_total y x

instance treeRelTrans (df : Dataset) : IsTrans String (treeRel df) := by
  constructor
  intro a b c h1 h2
  unfold treeRel at h1 h2 ⊢
  generalize hka : meanKey df a = ka at h1 ⊢
  generalize hkb : meanKey df b = kb at h1 h2
  generalize hkc : meanKey df c = kc at h2 ⊢
  rcases ka with _ | x <;> rcases kb with _ | y <;> rcases kc with _ | z <;>
    simp [keyBefore] at h1 h2 ⊢
  exact le_trans h2 h1

/-- Model of `tree_data.sort_values(by="Mean Score", ascending=False)`
(lines 178 to 181), as the list of attribute names in display order.
Pandas sorts a single key with `nargsort`: for a descending sort it
reverses the values, argsorts ascending with the requested kind, and
reverses the resulting indexer, so with a stable underlying argsort tied
keys keep their original relative order; the underlying numpy argsort is
an insertion sort for arrays shorter than 16 elements, which covers the
at most 6 attribute rows sorted here.  A stable sort with all larger
keys first is therefore the faithful model. -/
def treeData (df : Dataset) : List String :=
  (availableCols df).insertionSort (treeRel df)

/-- Page-level failure surfaced to the user instead of chart data. -/
inductive PageError where
  | missingColumns
deriving DecidableEq

/-- Aggregate outputs of the analysis branch of `Emotion_Resilience.py`:
the mutated dataframe plus every derived statistic handed to a chart. -/
structure Results where
  dfOut : Dataset
  agreeSeries : List (String × ℚ)
  overall : ℚ
  strongest : Option String
  weakest : Option String
  meanSeries : List (String × Option ℚ)
  sentiments : List (String × (ℚ × ℚ × ℚ))
  ranking : List String
deriving DecidableEq

/-- Re-embed an imputed numeric cell as a raw dataframe cell. -/
def rawOfNum : Option ℚ → RawValue
  | some q => .num q
  | none => .missing

/-- Lines 84 to 85 of `Emotion_Resilience.py`: write the coerced and
imputed attribute columns back into the dataframe, leaving every other
column untouched. -/
def mutateDf (df : Dataset) : Dataset :=
  ⟨df.cols.map (fun p =>
    if p.1 ∈ availableCols df then
      (p.1, (imputeColumn (coerceCol p.2)).map rawOfNum)
    else p)⟩

/-- The agreement series `agree_prop` of line 91, in available-columns
order. -/
def agreeSeriesOf (df : Dataset) : List (String × ℚ) :=
  (availableCols df).map (fun c => (c, agreeProp df c))

/-- The overall-agreement metric `agree_prop.mean()` of line 94. -/
def overallOf (df : Dataset) : ℚ :=
  ((agreeSeriesOf df).map Prod.snd).sum / ((agreeSeriesOf df).length : ℚ)

/-- Analysis branch of `Emotion_Resilience.py` (lines 77 to 196): the page
reports an error only when NO expected column is present
(`if not available_cols:`); otherwise it mutates the frame and computes
every aggregate statistic. -/
def emotionAnalyze (df : Dataset) : Except PageError Results :=
  let av := availableCols df
  if av.isEmpty then .error .missingColumns
  else
    .ok ⟨mutateDf df,
         agreeSeriesOf df,
         overallOf df,
         seriesIdxmax (agreeSeriesOf df),
         seriesIdxmin (agreeSeriesOf df),
         av.map (fun c => (c, meanKey df c)),
         av.map (fun c => (c, sentimentCol (imputedCol df c))),
         treeData df⟩

/-- Guard of `Emotional_Resilience.py` lines 43 to 47: fewer than 2
available columns stops the page with a warning; otherwise charts are
rendered from the raw columns, modelled by the per-column means the radar
chart uses. -/
def emotionalAnalyze (df : Dataset) :
    Except PageError (List (String × Option ℚ)) :=
  let av := availableCols df
  if av.length < 2 then .error .missingColumns
  else .ok (av.map (fun c => (c, meanScoreCol (coerceCol (getCol df c)))))

/-- Whether an analysis produced chart data rather than an error. -/
def isOkE : Except PageError α → Bool
  | .ok _ => true
  | .error _ => false

/-- Rows where both columns carry a value: pandas `corr` correlates each
pair of columns over their pairwise-complete observations. -/
def completePairs (x y : List (Option ℚ)) : List (ℚ × ℚ) :=
  (x.zip y).filterMap (fun p =>
    match p with
    | (some a, some b) => some (a, b)
    | _ => none)

/-- Numerator of the Pearson coefficient in the classical
`n * Σxy - Σx * Σy` form, equal in exact arithmetic to the mean-centred
covariance numerator pandas computes. -/
def pearsonNum (ps : List (ℚ × ℚ)) : ℚ :=
  (ps.length : ℚ) * (ps.map (fun p => p.1 * p.2)).sum
    - (ps.map Prod.fst).sum * (ps.map Prod.snd).sum

/-- Square of the corresponding Pearson denominator. -/
def pearsonDen2 (ps : List (ℚ × ℚ)) : ℚ :=
  ((ps.length : ℚ) * (ps.map (fun p => p.1 ^ 2)).sum - (ps.map Prod.fst).sum ^ 2)
    * ((ps.length : ℚ) * (ps.map (fun p => p.2 ^ 2)).sum - (ps.map Prod.snd).sum ^ 2)

/-- Pearson correlation coefficient of a list of paired observations. -/
noncomputable def pearson (ps : List (ℚ × ℚ)) : ℝ :=
  (pearsonNum ps : ℝ) / Real.sqrt (pearsonDen2 ps)

/-- Entry of `df[available_cols].corr()` (line 121 of
`Emotion_Resilience.py`, line 95 of `Emotional_Resilience.py`) at row
`c1` and column `c2`. -/
noncomputable def corrEntry (df : Dataset) (c1 c2 : String) : ℝ :=
  pearson (completePairs (imputedCol df c1) (imputedCol df c2))

/-- Decidable test that a list of rationals takes two different values. -/
def nonConstantL : List ℚ → Bool
  | [] => false
  | x :: xs => xs.any (fun y => decide (¬ y = x))

/-- Model of `corr.unstack()`: every ordered pair of attribute names with
its matrix entry, the outer (column) index varying slowest. -/
def unstackEntries (ns : List String) (m : String → String → ℚ) :
    List ((String × String) × ℚ) :=
  ns.flatMap (fun c => ns.map (fun r => ((c, r), m c r)))

/-- Descending order on unstacked entries
(`sort_values(ascending=False)`). -/
def entryRel (e f : (String × String) × ℚ) : Prop :=
  f.2 ≤ e.2

instance entryRelDec : DecidableRel entryRel :=
  fun e f => inferInstanceAs (Decidable (f.2 ≤ e.2))

instance entryRelTotal : IsTotal ((String × String) × ℚ) entryRel :=
  ⟨fun a b => le_total b.2 a.2⟩

instance entryRelTrans : IsTrans ((String × String) × ℚ) entryRel :=
  ⟨fun _ _ _ h1 h2 => le_trans h2 h1⟩

/-- Model of `Series.drop_duplicates()`: keep the first entry carrying
each distinct value. -/
def dropDupValsAux (seen : List ℚ) :
    List ((String × String) × ℚ) → List ((String × String) × ℚ)
  | [] => []
  | e :: es =>
    if e.2 ∈ seen then dropDupValsAux seen es
    else e :: dropDupValsAux (e.2 :: seen) es

/-- Series-valued `drop_duplicates` starting from no seen values. -/
def dropDupVals (l : List ((String × String) × ℚ)) :
    List ((String × String) × ℚ) :=
  dropDupValsAux [] l

/-- Lines 127 to 129 of `Emotion_Resilience.py`: unstack the correlation
matrix, sort descending by value, drop duplicate values, keep entries
strictly below 1, take the first 3. -/
def highCorrPairs (ns : List String) (m : String → String → ℚ) :
    List ((String × String) × ℚ) :=
  ((dropDupVals ((unstackEntries ns m).insertionSort entryRel)).filter
    (fun e => decide (e.2 < 1))).take 3

/-- Every unordered pair of distinct names, each exactly once. -/
def unorderedPairs : List String → List (String × String)
  | [] => []
  | c :: cs => cs.map (fun d => (c, d)) ++ unorderedPairs cs

/-- Modelled from the spec (section 4.4, top correlated pairs): enumerate
all unordered pairs of distinct attributes once, sort descending by
coefficient, report the top 3 with their coefficients. -/
def specTopPairs (ns : List String) (m : String → String → ℚ) :
    List ((String × String) × ℚ) :=
  (((unorderedPairs ns).map (fun p => (p, m p.1 p.2))).insertionSort entryRel).take 3

/-- Names bound in `Emotion_Resilience.py` before the `px.box` call of
line 138, in binding order: the imports, the module-level assignments and
the assignments of the analysis branch up to line 129. -/
def emotionPageNamesBeforeVariabilityBox : List String :=
  ["st", "pd", "np", "px", "go", "DATA_URL", "load_emotion_data", "df",
   "objective3_cols", "available_cols", "agree_prop", "m1", "m2", "m3",
   "mean_scores", "fig_radar", "corr", "fig_corr", "high_corr"]

/-- Left side of the sentiment invariant: |disagree| + neutral + agree. -/
def sentimentAbsSum (t : ℚ × ℚ × ℚ) : ℚ :=
  |t.1| + t.2.1 + t.2.2

/-- Projection of an analysis outcome onto the dataframe it left behind. -/
def dfOutOf : Except PageError Results → Option Dataset
  | .ok r => some r.dfOut
  | .error _ => none

/-- Dataset carrying exactly one expected attribute column. -/
def dataOneCol : Dataset :=
  ⟨[("teamwork", [.num 4, .num 5, .num 3])]⟩

/-- The 5-row worked-example dataset of the spec: `teamwork` =
[5, 4, 1, missing, 3]. -/
def dataScenario : Dataset :=
  ⟨[("teamwork", [.num 5, .num 4, .num 1, .missing, .num 3])]⟩

/-- Dataset whose `teamwork` column loses every value to numeric
coercion, next to one healthy attribute column. -/
def dataAllMissing : Dataset :=
  ⟨[("teamwork", [.str "x", .missing]), ("adaptability", [.num 4, .num 5])]⟩

/-- Dataset with a non-attribute column and a missing value that
imputation overwrites. -/
def dataMutated : Dataset :=
  ⟨[("id", [.str "a", .str "b"]), ("teamwork", [.missing, .num 5])]⟩

/-- Dataset with two identical, non-constant attribute columns. -/
def dataPerf : Dataset :=
  ⟨[("emotional_control", [.num 1, .num 2]), ("adaptability", [.num 1, .num 2])]⟩

/-- Dataset with two attribute columns with distinct agreement
proportions and mean scores. -/
def dataTwoCol : Dataset :=
  ⟨[("teamwork", [.num 4]), ("adaptability", [.num 1])]⟩

/-- The constant-1 correlation matrix produced by two identical
non-constant columns. -/
def corrOnes : String → String → ℚ := fun _ _ => 1

lemma keyBefore_refl (a : Option ℚ) : keyBefore a a = true := by
  cases a <;> simp [keyBefore]

lemma keyBefore_total (a b : Option ℚ) :
    keyBefore a b = true ∨ keyBefore b a = true := by
  cases a <;> cases b <;> simp [keyBefore]
  exact le_total _ _

lemma keyBefore_trans {a b c : Option ℚ} (h1 : keyBefore a b = true)
    (h2 : keyBefore b c = true) : keyBefore a c = true := by
  cases a <;> cases b <;> cases c <;> simp [keyBefore] at h1 h2 ⊢
  exact le_trans h2 h1

lemma mem_of_getLastEq {α : Type} :
    ∀ {l : List α} {b : α}, l.getLast? = some b → b ∈ l
  | [], _, hb => by simp at hb
  | [x], b, hb => by
    simp [List.getLast?] at hb
    simp [hb]
  | x :: y :: t, b, hb => by
    rw [List.getLast?_cons_cons] at hb
    exact List.mem_cons_of_mem x (mem_of_getLastEq hb)

lemma pairwise_rel_getLast {α : Type} {R : α → α → Prop}
    (hrefl : ∀ x, R x x) :
    ∀ {l : List α} {a b : α}, l.Pairwise R → l.getLast? = some b → a ∈ l → R a b := by
  intro l
  induction l with
  | nil => intro a b _ hb; simp at hb
  | cons x t ih =>
    intro a b hp hb ha
    cases t with
    | nil =>
      simp [List.getLast?] at hb
      rcases List.mem_singleton.mp ha with rfl
      rw [hb]
      exact hrefl _
    | cons y u =>
      rw [List.getLast?_cons_cons] at hb
      rcases List.mem_cons.mp ha with rfl | ha'
      · exact (List.pairwise_cons.mp hp).1 b (mem_of_getLastEq hb)
      · exact ih (List.pairwise_cons.mp hp).2 hb ha'

lemma insertionSort_filter {α : Type} {r : α → α → Prop} [DecidableRel r]
    (p : α → Bool) (hp : ∀ a b, p a = true → p b = true → r a b) (l : List α) :
    (l.insertionSort r).filter p = l.filter p := by
  have hall : ∀ a ∈ l.filter p, p a = true := fun a ha => (List.mem_filter.mp ha).2
  have hpair : (l.filter p).Pairwise r := by
    apply List.pairwise_of_forall_mem_list
    intro a ha b hb
    exact hp a b (hall a ha) (hall b hb)
  have hsub : List.Sublist (l.filter p) (l.insertionSort r) :=
    List.sublist_insertionSort hpair (List.filter_sublist l)
  have h1 : (l.filter p).filter p = l.filter p :=
    List.filter_eq_self.mpr hall
  have h2 : List.Sublist (l.filter p) ((l.insertionSort r).filter p) := by
    simpa [h1] using hsub.filter p
  have h3 : List.Perm ((l.insertionSort r).filter p) (l.filter p) :=
    (List.perm_insertionSort r l).filter p
  exact (h2.eq_of_length h3.length_eq.symm).symm

/-- C10: the claim that execution reaches the "Variability of Attributes"
boxplot construction without error fails on the code: the `px.box` call at
lines 138 to 144 of `Emotion_Resilience.py` references `resilience_cols`,
a name bound nowhere earlier in the module (and the call itself lacks a
comma between its `color` and `title` arguments, so the file does not even
parse). -/
theorem c10_resilience_cols_unbound :
    emotionPageNamesBeforeVariabilityBox.contains "resilience_cols" = false := by
  decide

/-- C1: with exactly one expected attribute column present the
available-columns list has fewer than 2 entries, yet the analysis branch
of `Emotion_Resilience.py` (whose guard only checks for an EMPTY list)
still produces its aggregate results, while `Emotional_Resilience.py`
correctly reports the analysis as infeasible. -/
theorem c1_single_column_guard_mismatch :
    availableCols dataOneCol = ["teamwork"] ∧
    (availableCols dataOneCol).length < 2 ∧
    isOkE (emotionAnalyze dataOneCol) = true ∧
    isOkE (emotionalAnalyze dataOneCol) = false := by
  refine ⟨by decide, by decide, ?_, by decide⟩
  decide

/-- C3 counterexample: on the worked example of the spec [5, 4, 1, missing, 3]
the pandas median of the non-missing values {5,4,1,3} is 3.5, not 4, so
the claimed imputed column [5,4,1,4,3] and mean 3.4 are wrong as well. -/
theorem c3_worked_example_cex :
    ¬ (medianQ ((coerceCol (getCol dataScenario "teamwork")).filterMap id) = some 4 ∧
       imputedCol dataScenario "teamwork" = [some 5, some 4, some 1, some 4, some 3] ∧
       meanKey dataScenario "teamwork" = some (17/5) ∧
       agreeProp dataScenario "teamwork" = 2/5) := by
  intro h
  have h1 := h.1
  norm_num [dataScenario, getCol, coerceCol, toNumeric, medianQ,
    List.insertionSort, List.orderedInsert, List.find?, List.filterMap] at h1

/-- C3 amended: for the worked example the median over {5,4,1,3} is 3.5,
the imputed column is [5, 4, 1, 3.5, 3], its mean is 3.3, and the
agreement proportion (values in {4,5}) is 2/5 = 0.4. -/
theorem c3_worked_example_amended :
    medianQ ((coerceCol (getCol dataScenario "teamwork")).filterMap id) = some (7/2) ∧
    imputedCol dataScenario "teamwork" = [some 5, some 4, some 1, some (7/2), some 3] ∧
    meanKey dataScenario "teamwork" = some (33/10) ∧
    agreeProp dataScenario "teamwork" = 2/5 := by
  refine ⟨?_, ?_, ?_, ?_⟩ <;>
    norm_num [dataScenario, getCol, coerceCol, toNumeric, medianQ, imputedCol,
      imputeColumn, meanKey, meanScoreCol, agreeProp, agreePropCol,
      List.insertionSort, List.orderedInsert, List.find?, List.filterMap,
      List.countP_cons, List.countP_nil]

/-- C2 counterexample: the `teamwork` column of `dataAllMissing` is an
available attribute column whose coerced values are all missing, yet the
page reports no condition at all — the analysis succeeds and the column
passes through still containing missing values. -/
theorem c2_empty_column_cex :
    "teamwork" ∈ availableCols dataAllMissing ∧
    (∀ o ∈ coerceCol (getCol dataAllMissing "teamwork"), o = none) ∧
    isOkE (emotionAnalyze dataAllMissing) = true ∧
    none ∈ imputedCol dataAllMissing "teamwork" := by
  decide

/-- C2 amended: for an available attribute column that is all-missing
after coercion, the code raises no error and substitutes no default: the
column median is itself missing, `fillna` leaves the column unchanged
(all values still missing), and the analysis proceeds normally. -/
theorem c2_empty_column_passthrough (df : Dataset) (c : String)
    (h : ∀ o ∈ coerceCol (getCol df c), o = none) :
    imputedCol df c = coerceCol (getCol df c) ∧
    (availableCols df ≠ [] → isOkE (emotionAnalyze df) = true) := by
  constructor
  · unfold imputedCol imputeColumn
    have hnil : (coerceCol (getCol df c)).filterMap id = [] := by
      rw [List.filterMap_eq_nil_iff]
      intro a ha
      exact h a ha
    rw [hnil]
    rfl
  · intro hne
    simp [emotionAnalyze, isOkE, List.isEmpty_iff, hne]

/-- Witness for the C2 amended theorem at the concrete all-missing
column of `dataAllMissing`. -/
theorem c2_empty_column_passthrough_w :
    imputedCol dataAllMissing "teamwork" = coerceCol (getCol dataAllMissing "teamwork") ∧
    (availableCols dataAllMissing ≠ [] → isOkE (emotionAnalyze dataAllMissing) = true) :=
  c2_empty_column_passthrough dataAllMissing "teamwork" (by decide)

/-- C9 counterexample: the aggregation mutates its input — on
`dataMutated` the dataframe left behind by lines 84 to 85 differs from
the input frame (the missing `teamwork` entry now carries the imputed
median). -/
theorem c9_input_mutated_cex :
    isOkE (emotionAnalyze dataMutated) = true ∧
    dfOutOf (emotionAnalyze dataMutated) ≠ some dataMutated := by
  decide

/-- C9 amended: the aggregation holds no state between calls but is not
mutation-free: it overwrites exactly the available attribute columns of
its frame with their coerced and imputed values, leaves every other
column untouched, and the mutated frame is what the analysis leaves
behind. -/
theorem c9_mutation_frame (df : Dataset) (p : String × List RawValue)
    (hp : p ∈ df.cols) :
    (p.1 ∉ availableCols df → p ∈ (mutateDf df).cols) ∧
    (p.1 ∈ availableCols df →
      (p.1, (imputeColumn (coerceCol p.2)).map rawOfNum) ∈ (mutateDf df).cols) ∧
    (availableCols df ≠ [] → dfOutOf (emotionAnalyze df) = some (mutateDf df)) := by
  refine ⟨?_, ?_, ?_⟩
  · intro hno
    have hm := List.mem_map_of_mem
      (fun p : String × List RawValue =>
        if p.1 ∈ availableCols df then
          (p.1, (imputeColumn (coerceCol p.2)).map rawOfNum)
        else p) hp
    simpa [mutateDf, hno] using hm
  · intro hyes
    have hm := List.mem_map_of_mem
      (fun p : String × List RawValue =>
        if p.1 ∈ availableCols df then
          (p.1, (imputeColumn (coerceCol p.2)).map rawOfNum)
        else p) hp
    simpa [mutateDf, hyes] using hm
  · intro hne
    simp [emotionAnalyze, dfOutOf, List.isEmpty_iff, hne]

/-- Witness for the C9 amended theorem at the concrete frame
`dataMutated` and its untouched `id` column. -/
theorem c9_mutation_frame_w :
    (("id", [RawValue.str "a", RawValue.str "b"]).1 ∉ availableCols dataMutated →
      ("id", [RawValue.str "a", RawValue.str "b"]) ∈ (mutateDf dataMutated).cols) ∧
    (("id", [RawValue.str "a", RawValue.str "b"]).1 ∈ availableCols dataMutated →
      (("id", [RawValue.str "a", RawValue.str "b"]).1,
        (imputeColumn (coerceCol ("id", [RawValue.str "a", RawValue.str "b"]).2)).map rawOfNum) ∈
        (mutateDf dataMutated).cols) ∧
    (availableCols dataMutated ≠ [] →
      dfOutOf (emotionAnalyze dataMutated) = some (mutateDf dataMutated)) :=
  c9_mutation_frame dataMutated ("id", [.str "a", .str "b"]) (by decide)

/-- C8: the ranking `tree_data` is the available attributes sorted
descending by mean score: it is a permutation of the available columns,
pairwise ordered by the descending key order, stable (attributes with
equal mean score keep their available-columns order: filtering either
list to one key value gives the same list), and its first entry has
maximal, its last entry minimal mean key.  The ordering is a pure
function of the dataset, hence deterministic. -/
theorem c8_ranking_sorted_stable (df : Dataset) :
    List.Perm (treeData df) (availableCols df) ∧
    (treeData df).Pairwise (treeRel df) ∧
    (∀ v : Option ℚ,
      (treeData df).filter (fun c => decide (meanKey df c = v)) =
        (availableCols df).filter (fun c => decide (meanKey df c = v))) ∧
    (∀ h ∈ (treeData df).head?, ∀ a ∈ treeData df, treeRel df h a) ∧
    (∀ b ∈ (treeData df).getLast?, ∀ a ∈ treeData df, treeRel df a b) := by
  have hsort : (treeData df).Pairwise (treeRel df) :=
    List.sorted_insertionSort (treeRel df) (availableCols df)
  refine ⟨List.perm_insertionSort _ _, hsort, ?_, ?_, ?_⟩
  · intro v
    apply insertionSort_filter
    intro a b ha hb
    have ha' : meanKey df a = v := by simpa using ha
    have hb' : meanKey df b = v := by simpa using hb
    unfold treeRel
    rw [ha', hb']
    exact keyBefore_refl v
  · intro h hh a ha
    rcases htd : treeData df with _ | ⟨x, t⟩
    · rw [htd] at hh; simp at hh
    · rw [htd] at hh ha hsort
      have hx : x = h := by simpa using hh
      subst hx
      rcases List.mem_cons.mp ha with rfl | hat
      · exact keyBefore_refl _
      · exact List.rel_of_sorted_cons hsort a hat
  · intro b hb a ha
    exact pairwise_rel_getLast (fun x => keyBefore_refl (meanKey df x)) hsort
      (Option.mem_def.mp hb) ha

/-- Witness for the C8 theorem at the two-column dataset: the ranking is
a permutation of the available columns and its head `teamwork`
(mean 4) precedes `adaptability` (mean 1). -/
theorem c8_ranking_sorted_stable_w :
    List.Perm (treeData dataTwoCol) (availableCols dataTwoCol) ∧
    treeRel dataTwoCol "teamwork" "adaptability" := by
  have htd : treeData dataTwoCol = ["teamwork", "adaptability"] := by
    norm_num [treeData, availableCols, objective3Cols, Dataset.columns, dataTwoCol,
      List.insertionSort, List.orderedInsert, treeRel, keyBefore, meanKey,
      meanScoreCol, imputedCol, imputeColumn, coerceCol, toNumeric, getCol,
      medianQ, List.find?, List.filterMap]
  refine ⟨(c8_ranking_sorted_stable dataTwoCol).1, ?_⟩
  exact (c8_ranking_sorted_stable dataTwoCol).2.2.2.1 "teamwork" (by rw [htd]; rfl)
    "adaptability" (by rw [htd]; simp)

lemma idxmaxAux_max (b : String × ℚ) (l : List (String × ℚ)) :
    b.2 ≤ (idxmaxAux b l).2 ∧ ∀ p ∈ l, p.2 ≤ (idxmaxAux b l).2 := by
  induction l generalizing b with
  | nil => exact ⟨le_refl _, by simp⟩
  | cons p ps ih =>
    by_cases hlt : b.2 < p.2
    · simp only [idxmaxAux, if_pos hlt]
      refine ⟨le_trans (le_of_lt hlt) (ih p).1, ?_⟩
      intro q hq
      rcases List.mem_cons.mp hq with rfl | hq'
      · exact (ih q).1
      · exact (ih p).2 q hq'
    · simp only [idxmaxAux, if_neg hlt]
      refine ⟨(ih b).1, ?_⟩
      intro q hq
      rcases List.mem_cons.mp hq with rfl | hq'
      · exact le_trans (not_lt.mp hlt) (ih b).1
      · exact (ih b).2 q hq'

lemma idxmaxAux_first (b : String × ℚ) (l : List (String × ℚ)) :
    ∃ l₁ l₂, b :: l = l₁ ++ (idxmaxAux b l) :: l₂ ∧
      ∀ q ∈ l₁, q.2 < (idxmaxAux b l).2 := by
  induction l generalizing b with
  | nil => exact ⟨[], [], rfl, by simp⟩
  | cons p ps ih =>
    by_cases hlt : b.2 < p.2
    · obtain ⟨l₁, l₂, heq, hq⟩ := ih p
      refine ⟨b :: l₁, l₂, ?_, ?_⟩
      · simp only [idxmaxAux, if_pos hlt, List.cons_append]
        rw [← heq]
      · intro q hq'
        simp only [idxmaxAux, if_pos hlt]
        rcases List.mem_cons.mp hq' with rfl | hq''
        · exact lt_of_lt_of_le hlt (idxmaxAux_max p ps).1
        · exact hq q hq''
    · obtain ⟨l₁, l₂, heq, hq⟩ := ih b
      rcases l₁ with _ | ⟨x, l₁t⟩
      · simp only [List.nil_append] at heq
        injection heq with h1 h2
        refine ⟨[], p :: ps, ?_, by simp⟩
        simp only [idxmaxAux, if_neg hlt, List.nil_append]
        rw [← h1]
      · rw [List.cons_append] at heq
        injection heq with h1 h2
        have hxb : x.2 < (idxmaxAux b ps).2 := hq x (List.mem_cons_self x l₁t)
        have hbmax : b.2 < (idxmaxAux b ps).2 := by rwa [← h1] at hxb
        refine ⟨b :: p :: l₁t, l₂, ?_, ?_⟩
        · simp only [idxmaxAux, if_neg hlt, List.cons_append]
          rw [← h2]
        · intro q hq'
          simp only [idxmaxAux, if_neg hlt]
          rcases List.mem_cons.mp hq' with rfl | hq''
          · exact hbmax
          rcases List.mem_cons.mp hq'' with rfl | hq'''
          · exact lt_of_le_of_lt (not_lt.mp hlt) hbmax
          · exact hq q (List.mem_cons_of_mem x hq''')

lemma idxminAux_min (b : String × ℚ) (l : List (String × ℚ)) :
    (idxminAux b l).2 ≤ b.2 ∧ ∀ p ∈ l, (idxminAux b l).2 ≤ p.2 := by
  induction l generalizing b with
  | nil => exact ⟨le_refl _, by simp⟩
  | cons p ps ih =>
    by_cases hlt : p.2 < b.2
    · simp only [idxminAux, if_pos hlt]
      refine ⟨le_trans (ih p).1 (le_of_lt hlt), ?_⟩
      intro q hq
      rcases List.mem_cons.mp hq with rfl | hq'
      · exact (ih q).1
      · exact (ih p).2 q hq'
    · simp only [idxminAux, if_neg hlt]
      refine ⟨(ih b).1, ?_⟩
      intro q hq
      rcases List.mem_cons.mp hq with rfl | hq'
      · exact le_trans (ih b).1 (not_lt.mp hlt)
      · exact (ih b).2 q hq'

lemma idxminAux_first (b : String × ℚ) (l : List (String × ℚ)) :
    ∃ l₁ l₂, b :: l = l₁ ++ (idxminAux b l) :: l₂ ∧
      ∀ q ∈ l₁, (idxminAux b l).2 < q.2 := by
  induction l generalizing b with
  | nil => exact ⟨[], [], rfl, by simp⟩
  | cons p ps ih =>
    by_cases hlt : p.2 < b.2
    · obtain ⟨l₁, l₂, heq, hq⟩ := ih p
      refine ⟨b :: l₁, l₂, ?_, ?_⟩
      · simp only [idxminAux, if_pos hlt, List.cons_append]
        rw [← heq]
      · intro q hq'
        simp only [idxminAux, if_pos hlt]
        rcases List.mem_cons.mp hq' with rfl | hq''
        · exact lt_of_le_of_lt (idxminAux_min p ps).1 hlt
        · exact hq q hq''
    · obtain ⟨l₁, l₂, heq, hq⟩ := ih b
      rcases l₁ with _ | ⟨x, l₁t⟩
      · simp only [List.nil_append] at heq
        injection heq with h1 h2
        refine ⟨[], p :: ps, ?_, by simp⟩
        simp only [idxminAux, if_neg hlt, List.nil_append]
        rw [← h1]
      · rw [List.cons_append] at heq
        injection heq with h1 h2
        have hxb : (idxminAux b ps).2 < x.2 := hq x (List.mem_cons_self x l₁t)
        have hbmin : (idxminAux b ps).2 < b.2 := by rwa [← h1] at hxb
        refine ⟨b :: p :: l₁t, l₂, ?_, ?_⟩
        · simp only [idxminAux, if_neg hlt, List.cons_append]
          rw [← h2]
        · intro q hq'
          simp only [idxminAux, if_neg hlt]
          rcases List.mem_cons.mp hq' with rfl | hq''
          · exact hbmin
          rcases List.mem_cons.mp hq'' with rfl | hq'''
          · exact lt_of_lt_of_le hbmin (not_lt.mp hlt)
          · exact hq q (List.mem_cons_of_mem x hq''')

lemma agreeSeries_mem (df : Dataset) {q : String × ℚ}
    (hq : q ∈ agreeSeriesOf df) :
    q.1 ∈ availableCols df ∧ q.2 = agreeProp df q.1 := by
  obtain ⟨c, hc, hcq⟩ := List.mem_map.mp hq
  cases hcq
  exact ⟨hc, rfl⟩

lemma availableCols_eq_map_fst (df : Dataset) :
    availableCols df = (agreeSeriesOf df).map Prod.fst := by
  simp [agreeSeriesOf, List.map_map, Function.comp_def]

/-- C5: the per-attribute agreement proportion is the fraction of rows
whose post-imputation value is 4 or 5 (this is the definition of
`agreeProp`); the strongest attribute returned by `idxmax` attains the
maximal proportion and is the first such in available-columns order; the
growth-area attribute returned by `idxmin` attains the minimal proportion
and is the first such; overall agreement is the mean of the per-attribute
proportions. -/
theorem c5_agreement_metrics (df : Dataset) (s w : String)
    (hs : seriesIdxmax (agreeSeriesOf df) = some s)
    (hw : seriesIdxmin (agreeSeriesOf df) = some w) :
    s ∈ availableCols df ∧ w ∈ availableCols df ∧
    (∀ c ∈ availableCols df, agreeProp df c ≤ agreeProp df s) ∧
    (∀ c ∈ availableCols df, agreeProp df w ≤ agreeProp df c) ∧
    (∃ l₁ l₂, availableCols df = l₁ ++ s :: l₂ ∧
      ∀ c ∈ l₁, agreeProp df c < agreeProp df s) ∧
    (∃ l₁ l₂, availableCols df = l₁ ++ w :: l₂ ∧
      ∀ c ∈ l₁, agreeProp df w < agreeProp df c) ∧
    overallOf df =
      ((availableCols df).map (fun c => agreeProp df c)).sum /
        ((availableCols df).length : ℚ) := by
  rcases hser : agreeSeriesOf df with _ | ⟨b, ps⟩
  · rw [hser] at hs
    simp [seriesIdxmax] at hs
  · rw [hser] at hs hw
    simp only [seriesIdxmax, seriesIdxmin, Option.some.injEq] at hs hw
    obtain ⟨l₁, l₂, heq, hqlt⟩ := idxmaxAux_first b ps
    obtain ⟨k₁, k₂, keq, kqlt⟩ := idxminAux_first b ps
    have hrmem : idxmaxAux b ps ∈ agreeSeriesOf df := by
      rw [hser, heq]
      exact List.mem_append_right _ (List.mem_cons_self _ _)
    have hmmem : idxminAux b ps ∈ agreeSeriesOf df := by
      rw [hser, keq]
      exact List.mem_append_right _ (List.mem_cons_self _ _)
    have hrprop := agreeSeries_mem df hrmem
    have hmprop := agreeSeries_mem df hmmem
    have hrval : (idxmaxAux b ps).2 = agreeProp df s := by rw [hrprop.2, hs]
    have hmval : (idxminAux b ps).2 = agreeProp df w := by rw [hmprop.2, hw]
    have hbound : ∀ c ∈ availableCols df, agreeProp df c ≤ agreeProp df s := by
      intro c hc
      have hcser : (c, agreeProp df c) ∈ b :: ps := by
        rw [← hser]
        exact List.mem_map_of_mem (fun c => (c, agreeProp df c)) hc
      rcases List.mem_cons.mp hcser with hcb | hcps
      · calc agreeProp df c = b.2 := congrArg Prod.snd hcb
          _ ≤ (idxmaxAux b ps).2 := (idxmaxAux_max b ps).1
          _ = agreeProp df s := hrval
      · calc agreeProp df c ≤ (idxmaxAux b ps).2 := (idxmaxAux_max b ps).2 _ hcps
          _ = agreeProp df s := hrval
    have hbound' : ∀ c ∈ availableCols df, agreeProp df w ≤ agreeProp df c := by
      intro c hc
      have hcser : (c, agreeProp df c) ∈ b :: ps := by
        rw [← hser]
        exact List.mem_map_of_mem (fun c => (c, agreeProp df c)) hc
      rcases List.mem_cons.mp hcser with hcb | hcps
      · calc agreeProp df w = (idxminAux b ps).2 := hmval.symm
          _ ≤ b.2 := (idxminAux_min b ps).1
          _ = agreeProp df c := (congrArg Prod.snd hcb).symm
      · calc agreeProp df w = (idxminAux b ps).2 := hmval.symm
          _ ≤ agreeProp df c := (idxminAux_min b ps).2 _ hcps
    refine ⟨hs ▸ hrprop.1, hw ▸ hmprop.1, hbound, hbound', ?_, ?_, ?_⟩
    · refine ⟨l₁.map Prod.fst, l₂.map Prod.fst, ?_, ?_⟩
      · rw [availableCols_eq_map_fst df, hser, heq]
        simp [hs]
      · intro c hc
        obtain ⟨q, hq, hqc⟩ := List.mem_map.mp hc
        have hqser : q ∈ agreeSeriesOf df := by
          rw [hser, heq]
          exact List.mem_append_left _ hq
        have hqprop := agreeSeries_mem df hqser
        calc agreeProp df c = q.2 := by rw [← hqc]; exact hqprop.2.symm
          _ < (idxmaxAux b ps).2 := hqlt q hq
          _ = agreeProp df s := hrval
    · refine ⟨k₁.map Prod.fst, k₂.map Prod.fst, ?_, ?_⟩
      · rw [availableCols_eq_map_fst df, hser, keq]
        simp [hw]
      · intro c hc
        obtain ⟨q, hq, hqc⟩ := List.mem_map.mp hc
        have hqser : q ∈ agreeSeriesOf df := by
          rw [hser, keq]
          exact List.mem_append_left _ hq
        have hqprop := agreeSeries_mem df hqser
        calc agreeProp df w = (idxminAux b ps).2 := hmval.symm
          _ < q.2 := kqlt q hq
          _ = agreeProp df c := by rw [← hqc]; exact hqprop.2
    · simp [overallOf, agreeSeriesOf, List.map_map, Function.comp_def]

/-- Witness for the C5 theorem on the two-column dataset, where
`teamwork` has agreement 1 and `adaptability` agreement 0. -/
theorem c5_agreement_metrics_w :
    "teamwork" ∈ availableCols dataTwoCol ∧
    "adaptability" ∈ availableCols dataTwoCol ∧
    (∀ c ∈ availableCols dataTwoCol,
      agreeProp dataTwoCol c ≤ agreeProp dataTwoCol "teamwork") ∧
    (∀ c ∈ availableCols dataTwoCol,
      agreeProp dataTwoCol "adaptability" ≤ agreeProp dataTwoCol c) ∧
    (∃ l₁ l₂, availableCols dataTwoCol = l₁ ++ "teamwork" :: l₂ ∧
      ∀ c ∈ l₁, agreeProp dataTwoCol c < agreeProp dataTwoCol "teamwork") ∧
    (∃ l₁ l₂, availableCols dataTwoCol = l₁ ++ "adaptability" :: l₂ ∧
      ∀ c ∈ l₁, agreeProp dataTwoCol "adaptability" < agreeProp dataTwoCol c) ∧
    overallOf dataTwoCol =
      ((availableCols dataTwoCol).map (fun c => agreeProp dataTwoCol c)).sum /
        ((availableCols dataTwoCol).length : ℚ) := by
  have hgT : getCol dataTwoCol "teamwork" = [RawValue.num 4] := by decide
  have hgA : getCol dataTwoCol "adaptability" = [RawValue.num 1] := by decide
  have hagT : agreeProp dataTwoCol "teamwork" = 1 := by
    norm_num [agreeProp, agreePropCol, imputedCol, imputeColumn, coerceCol,
      toNumeric, hgT, medianQ, List.insertionSort, List.orderedInsert,
      List.filterMap, List.countP_cons, List.countP_nil]
  have hagA : agreeProp dataTwoCol "adaptability" = 0 := by
    norm_num [agreeProp, agreePropCol, imputedCol, imputeColumn, coerceCol,
      toNumeric, hgA, medianQ, List.insertionSort, List.orderedInsert,
      List.filterMap, List.countP_cons, List.countP_nil]
  have hav : availableCols dataTwoCol = ["adaptability", "teamwork"] := by decide
  exact c5_agreement_metrics dataTwoCol "teamwork" "adaptability"
    (by norm_num [agreeSeriesOf, hav, seriesIdxmax, idxmaxAux, hagT, hagA])
    (by norm_num [agreeSeriesOf, hav, seriesIdxmin, idxminAux, hagT, hagA])

lemma countP_scale_sum (l : List ℚ)
    (hs : ∀ q ∈ l, q = 1 ∨ q = 2 ∨ q = 3 ∨ q = 4 ∨ q = 5) :
    l.countP (fun x => decide (x = 1)) + l.countP (fun x => decide (x = 2))
      + l.countP (fun x => decide (x = 3)) + l.countP (fun x => decide (x = 4))
      + l.countP (fun x => decide (x = 5)) = l.length := by
  induction l with
  | nil => simp
  | cons a t ih =>
    have ha := hs a (List.mem_cons_self a t)
    have ih' := ih (fun q hq => hs q (List.mem_cons_of_mem a hq))
    simp only [List.countP_cons, List.length_cons]
    rcases ha with rfl | rfl | rfl | rfl | rfl <;> norm_num <;> omega

/-- C4 counterexample: on the worked-example column the imputed value 3.5
falls outside the reindexed scale {1,2,3,4,5}, its 20% of the mass is
dropped by the reindex, and |disagree| + neutral + agree = 80, which is
not within 1e-9 of 100. -/
theorem c4_sentiment_sum_cex :
    "teamwork" ∈ availableCols dataScenario ∧
    sentimentCol (imputedCol dataScenario "teamwork") = (-20, 20, 40) ∧
    ¬ |sentimentAbsSum (sentimentCol (imputedCol dataScenario "teamwork")) - 100| ≤
        1 / 1000000000 := by
  have hg : getCol dataScenario "teamwork" =
      [.num 5, .num 4, .num 1, .missing, .num 3] := by decide
  have ht : sentimentCol (imputedCol dataScenario "teamwork") = (-20, 20, 40) := by
    norm_num [sentimentCol, freqOf, imputedCol, imputeColumn, coerceCol, toNumeric,
      hg, medianQ, List.insertionSort, List.orderedInsert, List.filterMap,
      List.countP_cons, List.countP_nil]
  refine ⟨by decide, ht, ?_⟩
  rw [ht]
  have habs : sentimentAbsSum ((-20 : ℚ), (20 : ℚ), (40 : ℚ)) = 80 := by
    have h20 : |(-20 : ℚ)| = 20 := by
      rw [abs_of_nonpos (by norm_num)]
      norm_num
    simp [sentimentAbsSum, h20]
    norm_num
  rw [habs]
  norm_num

/-- C4 amended: the sentiment triple always follows the stated formulas;
the invariant |disagree| + neutral + agree = 100 holds (exactly, hence
within any tolerance) whenever the column has at least one non-missing
value and every post-imputation value lies on the scale {1,2,3,4,5}; a
non-integer imputed median or an off-scale response breaks it. -/
theorem c4_sentiment_sum_amended (v : List (Option ℚ))
    (hne : v.filterMap id ≠ [])
    (hs : ∀ q ∈ v.filterMap id, q = 1 ∨ q = 2 ∨ q = 3 ∨ q = 4 ∨ q = 5) :
    sentimentCol v =
      (-(freqOf v 1 + freqOf v 2) * 100, freqOf v 3 * 100,
        (freqOf v 4 + freqOf v 5) * 100) ∧
    sentimentAbsSum (sentimentCol v) = 100 := by
  refine ⟨rfl, ?_⟩
  have hemp : (v.filterMap id).isEmpty = false := by
    simp [List.isEmpty_iff, hne]
  have hlen : 0 < ((v.filterMap id).length : ℚ) := by
    have hl : 0 < (v.filterMap id).length := List.length_pos.mpr hne
    exact_mod_cast hl
  have hsum := countP_scale_sum (v.filterMap id) hs
  have hsumQ : ((v.filterMap id).countP (fun x => decide (x = 1)) : ℚ)
      + ((v.filterMap id).countP (fun x => decide (x = 2)) : ℚ)
      + ((v.filterMap id).countP (fun x => decide (x = 3)) : ℚ)
      + ((v.filterMap id).countP (fun x => decide (x = 4)) : ℚ)
      + ((v.filterMap id).countP (fun x => decide (x = 5)) : ℚ)
      = ((v.filterMap id).length : ℚ) := by exact_mod_cast hsum
  simp only [sentimentAbsSum, sentimentCol, freqOf, hemp, Bool.false_eq_true,
    if_false]
  have h12 : (0:ℚ) ≤
      ((v.filterMap id).countP (fun x => decide (x = 1)) : ℚ)
        / ((v.filterMap id).length : ℚ)
      + ((v.filterMap id).countP (fun x => decide (x = 2)) : ℚ)
        / ((v.filterMap id).length : ℚ) := by positivity
  rw [abs_of_nonpos (by linarith)]
  field_simp
  linear_combination (100 * (((v.filterMap id).length : ℚ))
    * (((v.filterMap id).length : ℚ))) * hsumQ

/-- Witness for the C4 amended theorem on the on-scale column
[4, 2]. -/
theorem c4_sentiment_sum_amended_w :
    sentimentCol [some 4, some 2] =
      (-(freqOf [some 4, some 2] 1 + freqOf [some 4, some 2] 2) * 100,
        freqOf [some 4, some 2] 3 * 100,
        (freqOf [some 4, some 2] 4 + freqOf [some 4, some 2] 5) * 100) ∧
    sentimentAbsSum (sentimentCol [some 4, some 2]) = 100 := by
  apply c4_sentiment_sum_amended
  · simp [List.filterMap]
  · intro q hq
    simp [List.filterMap] at hq
    rcases hq with rfl | rfl
    · norm_num
    · norm_num

lemma sum_map_add {α : Type} (f g : α → ℚ) (t : List α) :
    (t.map (fun x => f x + g x)).sum = (t.map f).sum + (t.map g).sum := by
  induction t with
  | nil => simp
  | cons a t ih =>
    simp only [List.map_cons, List.sum_cons, ih]
    ring

lemma inner_expand (a : ℚ) (t : List ℚ) :
    (t.map (fun y => (a - y)^2)).sum
      = (t.length : ℚ) * a^2 - 2*a*t.sum + (t.map (fun x => x^2)).sum := by
  induction t with
  | nil => simp
  | cons b t ih =>
    simp only [List.map_cons, List.sum_cons, List.length_cons, ih]
    push_cast
    ring

lemma pairSq_identity (l : List ℚ) :
    (l.map (fun x => (l.map (fun y => (x - y)^2)).sum)).sum
      = 2 * ((l.length : ℚ) * (l.map (fun x => x^2)).sum - l.sum^2) := by
  induction l with
  | nil => simp
  | cons a t ih =>
    have hswap : (t.map (fun x => (x - a)^2)).sum
        = (t.map (fun y => (a - y)^2)).sum := by
      apply congrArg
      apply List.map_congr_left
      intro x _
      ring
    simp only [List.map_cons, List.sum_cons, List.length_cons]
    rw [sum_map_add (fun x => (x - a)^2)
        (fun x => (t.map (fun y => (x - y)^2)).sum) t,
      hswap, inner_expand, ih]
    push_cast
    ring

lemma sum_pos_of_mem {l : List ℚ} (h0 : ∀ x ∈ l, 0 ≤ x) {x : ℚ}
    (hx : x ∈ l) (hxp : 0 < x) : 0 < l.sum := by
  induction l with
  | nil => simp at hx
  | cons a t ih =>
    rcases List.mem_cons.mp hx with rfl | hx'
    · have ht : 0 ≤ t.sum :=
        List.sum_nonneg (fun y hy => h0 y (List.mem_cons_of_mem _ hy))
      simp only [List.sum_cons]
      linarith
    · have ha : 0 ≤ a := h0 a (List.mem_cons_self _ _)
      have hts := ih (fun y hy => h0 y (List.mem_cons_of_mem _ hy)) hx'
      simp only [List.sum_cons]
      linarith

lemma variance_pos (l : List ℚ) (h : nonConstantL l = true) :
    0 < (l.length : ℚ) * (l.map (fun x => x^2)).sum - l.sum^2 := by
  rcases l with _ | ⟨a, t⟩
  · simp [nonConstantL] at h
  · simp only [nonConstantL, List.any_eq_true] at h
    obtain ⟨y, hy, hyne⟩ := h
    have hyne' : ¬ y = a := by simpa using hyne
    have hsq_nonneg : ∀ z ∈ (a :: t).map (fun yy => (a - yy)^2), 0 ≤ z := by
      intro z hz
      obtain ⟨w, -, rfl⟩ := List.mem_map.mp hz
      positivity
    have hterm_mem : (a - y)^2 ∈ (a :: t).map (fun yy => (a - yy)^2) :=
      List.mem_map_of_mem _ (List.mem_cons_of_mem _ hy)
    have hsub_ne : a - y ≠ 0 := fun hc => hyne' ((sub_eq_zero.mp hc).symm)
    have hterm_pos : 0 < (a - y)^2 :=
      lt_of_le_of_ne (sq_nonneg _) (Ne.symm (pow_ne_zero 2 hsub_ne))
    have hinner_pos : 0 < ((a :: t).map (fun yy => (a - yy)^2)).sum :=
      sum_pos_of_mem hsq_nonneg hterm_mem hterm_pos
    have houter_mem : ((a :: t).map (fun yy => (a - yy)^2)).sum ∈
        (a :: t).map (fun x => ((a :: t).map (fun yy => (x - yy)^2)).sum) :=
      List.mem_map_of_mem _ (List.mem_cons_self _ _)
    have houter_nonneg : ∀ z ∈
        (a :: t).map (fun x => ((a :: t).map (fun yy => (x - yy)^2)).sum), 0 ≤ z := by
      intro z hz
      obtain ⟨w, -, rfl⟩ := List.mem_map.mp hz
      apply List.sum_nonneg
      intro u hu
      obtain ⟨w2, -, rfl⟩ := List.mem_map.mp hu
      positivity
    have houter_pos :
        0 < ((a :: t).map (fun x => ((a :: t).map (fun yy => (x - yy)^2)).sum)).sum :=
      sum_pos_of_mem houter_nonneg houter_mem hinner_pos
    have hid := pairSq_identity (a :: t)
    linarith

lemma map_fst_diag (l : List ℚ) : (l.map (fun a => (a, a))).map Prod.fst = l := by
  induction l with
  | nil => rfl
  | cons a t ih => simp [ih]

lemma map_snd_diag (l : List ℚ) : (l.map (fun a => (a, a))).map Prod.snd = l := by
  induction l with
  | nil => rfl
  | cons a t ih => simp [ih]

lemma map_mul_diag (l : List ℚ) :
    (l.map (fun a => (a, a))).map (fun p => p.1 * p.2) = l.map (fun x => x ^ 2) := by
  induction l with
  | nil => rfl
  | cons a t ih => simp [ih, pow_two]

lemma map_fstsq_diag (l : List ℚ) :
    (l.map (fun a => (a, a))).map (fun p => p.1 ^ 2) = l.map (fun x => x ^ 2) := by
  induction l with
  | nil => rfl
  | cons a t ih => simp [ih]

lemma map_sndsq_diag (l : List ℚ) :
    (l.map (fun a => (a, a))).map (fun p => p.2 ^ 2) = l.map (fun x => x ^ 2) := by
  induction l with
  | nil => rfl
  | cons a t ih => simp [ih]

lemma completePairs_self (v : List (Option ℚ)) :
    completePairs v v = (v.filterMap id).map (fun a => (a, a)) := by
  induction v with
  | nil => rfl
  | cons o v ih =>
    cases o with
    | none => simpa [completePairs, List.filterMap_cons] using ih
    | some a => simpa [completePairs, List.filterMap_cons] using ih

lemma pearson_diag_eq_one (v : List (Option ℚ))
    (h : nonConstantL (v.filterMap id) = true) :
    pearson (completePairs v v) = 1 := by
  have hD := variance_pos (v.filterMap id) h
  have hnum : pearsonNum (completePairs v v)
      = ((v.filterMap id).length : ℚ)
          * ((v.filterMap id).map (fun x => x ^ 2)).sum - (v.filterMap id).sum ^ 2 := by
    rw [completePairs_self]
    simp only [pearsonNum, List.length_map]
    rw [map_mul_diag, map_fst_diag, map_snd_diag]
    ring
  have hden : pearsonDen2 (completePairs v v)
      = (((v.filterMap id).length : ℚ)
          * ((v.filterMap id).map (fun x => x ^ 2)).sum - (v.filterMap id).sum ^ 2)
        * (((v.filterMap id).length : ℚ)
          * ((v.filterMap id).map (fun x => x ^ 2)).sum - (v.filterMap id).sum ^ 2) := by
    rw [completePairs_self]
    simp only [pearsonDen2, List.length_map]
    rw [map_fstsq_diag, map_sndsq_diag, map_fst_diag, map_snd_diag]
  have hD0 : (0:ℝ) < ((((v.filterMap id).length : ℚ)
      * ((v.filterMap id).map (fun x => x ^ 2)).sum - (v.filterMap id).sum ^ 2 : ℚ) : ℝ) := by
    exact_mod_cast hD
  unfold pearson
  rw [hnum, hden]
  rw [show ((((((v.filterMap id).length : ℚ)
        * ((v.filterMap id).map (fun x => x ^ 2)).sum - (v.filterMap id).sum ^ 2)
      * (((v.filterMap id).length : ℚ)
        * ((v.filterMap id).map (fun x => x ^ 2)).sum - (v.filterMap id).sum ^ 2) : ℚ) : ℝ))
      = ((((v.filterMap id).length : ℚ)
        * ((v.filterMap id).map (fun x => x ^ 2)).sum - (v.filterMap id).sum ^ 2 : ℚ) : ℝ)
      * ((((v.filterMap id).length : ℚ)
        * ((v.filterMap id).map (fun x => x ^ 2)).sum - (v.filterMap id).sum ^ 2 : ℚ) : ℝ)
      by push_cast; ring]
  rw [Real.sqrt_mul_self (le_of_lt hD0)]
  exact div_self (ne_of_gt hD0)

lemma completePairs_swap (x y : List (Option ℚ)) :
    completePairs y x = (completePairs x y).map Prod.swap := by
  induction x generalizing y with
  | nil => cases y <;> rfl
  | cons a x ih =>
    cases y with
    | nil => rfl
    | cons b y =>
      cases a <;> cases b <;>
        simp [completePairs, List.zip_cons_cons, List.filterMap_cons] <;>
        simpa [completePairs] using ih y

lemma pearsonNum_swap (ps : List (ℚ × ℚ)) :
    pearsonNum (ps.map Prod.swap) = pearsonNum ps := by
  simp only [pearsonNum, List.length_map, List.map_map]
  have h1 : ps.map ((fun p : ℚ × ℚ => p.1 * p.2) ∘ Prod.swap)
      = ps.map (fun p => p.2 * p.1) := by
    apply List.map_congr_left
    intro p _
    rfl
  have h2 : ps.map (Prod.fst ∘ Prod.swap) = ps.map Prod.snd := by
    apply List.map_congr_left
    intro p _
    rfl
  have h3 : ps.map (Prod.snd ∘ Prod.swap) = ps.map Prod.fst := by
    apply List.map_congr_left
    intro p _
    rfl
  have h4 : ps.map (fun p => p.2 * p.1) = ps.map (fun p => p.1 * p.2) := by
    apply List.map_congr_left
    intro p _
    exact mul_comm _ _
  rw [h1, h2, h3, h4]
  ring

lemma pearsonDen2_swap (ps : List (ℚ × ℚ)) :
    pearsonDen2 (ps.map Prod.swap) = pearsonDen2 ps := by
  simp only [pearsonDen2, List.length_map, List.map_map]
  have h1 : ps.map ((fun p : ℚ × ℚ => p.1 ^ 2) ∘ Prod.swap)
      = ps.map (fun p => p.2 ^ 2) := by
    apply List.map_congr_left
    intro p _
    rfl
  have h2 : ps.map ((fun p : ℚ × ℚ => p.2 ^ 2) ∘ Prod.swap)
      = ps.map (fun p => p.1 ^ 2) := by
    apply List.map_congr_left
    intro p _
    rfl
  have h3 : ps.map (Prod.fst ∘ Prod.swap) = ps.map Prod.snd := by
    apply List.map_congr_left
    intro p _
    rfl
  have h4 : ps.map (Prod.snd ∘ Prod.swap) = ps.map Prod.fst := by
    apply List.map_congr_left
    intro p _
    rfl
  rw [h1, h2, h3, h4]
  ring

lemma pearson_swap (ps : List (ℚ × ℚ)) :
    pearson (ps.map Prod.swap) = pearson ps := by
  unfold pearson
  rw [pearsonNum_swap, pearsonDen2_swap]

/-- C6: the correlation matrix over the available attribute columns is
symmetric — the entry at (c1, c2) equals the entry at (c2, c1) for every
pair of attribute names — and its diagonal entry at any column whose
(pairwise-complete) values are not constant equals exactly 1.  The matrix
is square and name-indexed by construction (`corrEntry` is a function of
two attribute names over the same dataset). -/
theorem c6_corr_symm_diag (df : Dataset) (c1 c2 c : String)
    (hnc : nonConstantL ((imputedCol df c).filterMap id) = true) :
    corrEntry df c1 c2 = corrEntry df c2 c1 ∧ corrEntry df c c = 1 := by
  constructor
  · unfold corrEntry
    rw [completePairs_swap (imputedCol df c1) (imputedCol df c2), pearson_swap]
  · exact pearson_diag_eq_one _ hnc

/-- Witness for the C6 theorem on the dataset with two identical
non-constant columns. -/
theorem c6_corr_symm_diag_w :
    nonConstantL ((imputedCol dataPerf "emotional_control").filterMap id) = true ∧
    (corrEntry dataPerf "emotional_control" "adaptability" =
        corrEntry dataPerf "adaptability" "emotional_control" ∧
      corrEntry dataPerf "emotional_control" "emotional_control" = 1) := by
  have hg : getCol dataPerf "emotional_control" = [.num 1, .num 2] := by decide
  have hnc : nonConstantL ((imputedCol dataPerf "emotional_control").filterMap id) = true := by
    norm_num [imputedCol, imputeColumn, coerceCol, toNumeric, hg, medianQ,
      List.insertionSort, List.orderedInsert, List.filterMap, nonConstantL,
      List.any]
  exact ⟨hnc,
    c6_corr_symm_diag dataPerf "emotional_control" "adaptability" "emotional_control" hnc⟩

lemma dropDupValsAux_sublist (seen : List ℚ)
    (l : List ((String × String) × ℚ)) :
    List.Sublist (dropDupValsAux seen l) l := by
  induction l generalizing seen with
  | nil => simp [dropDupValsAux]
  | cons e es ih =>
    by_cases h : e.2 ∈ seen
    · simp only [dropDupValsAux, if_pos h]
      exact (ih seen).trans (List.sublist_cons_self e es)
    · simp only [dropDupValsAux, if_neg h]
      exact List.Sublist.cons₂ e (ih (e.2 :: seen))

lemma dropDupValsAux_strict (seen : List ℚ) (l : List ((String × String) × ℚ))
    (hp : l.Pairwise entryRel) :
    (dropDupValsAux seen l).Pairwise (fun a b => b.2 < a.2) ∧
    ∀ f ∈ dropDupValsAux seen l, f.2 ∉ seen := by
  induction l generalizing seen with
  | nil => exact ⟨List.Pairwise.nil, by simp [dropDupValsAux]⟩
  | cons e es ih =>
    have he := (List.pairwise_cons.mp hp).1
    have hp' := (List.pairwise_cons.mp hp).2
    by_cases h : e.2 ∈ seen
    · simp only [dropDupValsAux, if_pos h]
      exact ih seen hp'
    · simp only [dropDupValsAux, if_neg h]
      obtain ⟨hpw, hseen⟩ := ih (e.2 :: seen) hp'
      refine ⟨List.pairwise_cons.mpr ⟨?_, hpw⟩, ?_⟩
      · intro f hf
        have hfes : f ∈ es :=
          List.Sublist.mem hf (dropDupValsAux_sublist (e.2 :: seen) es)
        have hne2 : f.2 ∉ e.2 :: seen := hseen f hf
        have hfne : f.2 ≠ e.2 :=
          fun hc => hne2 (hc ▸ List.mem_cons_self _ _)
        exact lt_of_le_of_ne (he f hfes) hfne
      · intro f hf
        rcases List.mem_cons.mp hf with rfl | hf'
        · exact h
        · exact fun hmem => hseen f hf' (List.mem_cons_of_mem _ hmem)

/-- C7 counterexample: two identical non-constant columns give an
off-diagonal correlation of exactly 1 (`corrEntry` on `dataPerf`); on the
resulting all-ones matrix the report of the code drops the distinct pair
entirely (its `high_corr < 1` filter removes every coefficient equal to
1), while the enumeration of unordered pairs in the spec reports it as the top
pair: the two results differ. -/
theorem c7_top_pairs_cex :
    corrEntry dataPerf "emotional_control" "adaptability" = 1 ∧
    highCorrPairs (availableCols dataPerf) corrOnes = [] ∧
    specTopPairs (availableCols dataPerf) corrOnes =
      [(("emotional_control", "adaptability"), 1)] ∧
    highCorrPairs (availableCols dataPerf) corrOnes ≠
      specTopPairs (availableCols dataPerf) corrOnes := by
  have hgE : getCol dataPerf "emotional_control" = [.num 1, .num 2] := by decide
  have hgA : getCol dataPerf "adaptability" = [.num 1, .num 2] := by decide
  have h1 : imputedCol dataPerf "emotional_control" = [some 1, some 2] := by
    norm_num [imputedCol, imputeColumn, coerceCol, toNumeric, hgE, medianQ,
      List.insertionSort, List.orderedInsert, List.filterMap]
  have h2 : imputedCol dataPerf "adaptability" = [some 1, some 2] := by
    norm_num [imputedCol, imputeColumn, coerceCol, toNumeric, hgA, medianQ,
      List.insertionSort, List.orderedInsert, List.filterMap]
  have hav : availableCols dataPerf = ["emotional_control", "adaptability"] := by
    decide
  have hcorr : corrEntry dataPerf "emotional_control" "adaptability" = 1 := by
    unfold corrEntry
    rw [h1, h2]
    apply pearson_diag_eq_one
    norm_num [List.filterMap, nonConstantL, List.any]
  have hhigh : highCorrPairs (availableCols dataPerf) corrOnes = [] := by
    rw [hav]
    norm_num [highCorrPairs, dropDupVals, dropDupValsAux, unstackEntries,
      corrOnes, entryRel, List.insertionSort, List.orderedInsert,
      List.flatMap, List.filter]
  have hspec : specTopPairs (availableCols dataPerf) corrOnes =
      [(("emotional_control", "adaptability"), 1)] := by
    rw [hav]
    norm_num [specTopPairs, unorderedPairs, corrOnes, entryRel,
      List.insertionSort, List.orderedInsert]
  refine ⟨hcorr, hhigh, hspec, ?_⟩
  rw [hhigh, hspec]
  simp

/-- C7 amended: the report sorts all ordered matrix entries descending by
coefficient, keeps only the first entry for each distinct coefficient
value, excludes every entry with coefficient at least 1 (which removes
self-pairs but also any distinct pair correlating at exactly 1), and
returns at most 3 entries; every reported entry is a genuine matrix entry
with coefficient strictly below 1, and the reported coefficients are
strictly decreasing (so two distinct pairs sharing a coefficient are
collapsed into one entry). -/
theorem c7_top_pairs_amended (ns : List String) (m : String → String → ℚ)
    (e : (String × String) × ℚ) (he : e ∈ highCorrPairs ns m) :
    e.2 < 1 ∧ e ∈ unstackEntries ns m ∧
    (highCorrPairs ns m).Pairwise (fun a b => b.2 < a.2) ∧
    (highCorrPairs ns m).length ≤ 3 := by
  have hsorted : (List.insertionSort entryRel (unstackEntries ns m)).Pairwise entryRel :=
    List.sorted_insertionSort entryRel (unstackEntries ns m)
  obtain ⟨hstrict, -⟩ := dropDupValsAux_strict [] _ hsorted
  have hef : e ∈ (dropDupVals
      (List.insertionSort entryRel (unstackEntries ns m))).filter
      (fun e => decide (e.2 < 1)) := by
    have := he
    unfold highCorrPairs at this
    exact List.mem_of_mem_take this
  have helt : e.2 < 1 := by
    have := (List.mem_filter.mp hef).2
    simpa using this
  have hed : e ∈ dropDupVals (List.insertionSort entryRel (unstackEntries ns m)) :=
    (List.mem_filter.mp hef).1
  have hes : e ∈ List.insertionSort entryRel (unstackEntries ns m) :=
    List.Sublist.mem hed (dropDupValsAux_sublist [] _)
  have heu : e ∈ unstackEntries ns m :=
    (List.perm_insertionSort entryRel (unstackEntries ns m)).mem_iff.mp hes
  have hfilter : ((dropDupVals
      (List.insertionSort entryRel (unstackEntries ns m))).filter
      (fun e => decide (e.2 < 1))).Pairwise (fun a b => b.2 < a.2) :=
    List.Pairwise.filter _ hstrict
  have htake : (highCorrPairs ns m).Pairwise (fun a b => b.2 < a.2) := by
    unfold highCorrPairs
    exact List.Pairwise.sublist (List.take_sublist _ _) hfilter
  refine ⟨helt, heu, htake, ?_⟩
  unfold highCorrPairs
  exact List.length_take_le _ _

/-- Witness for the C7 amended theorem on a 2-attribute matrix with
off-diagonal coefficient 1/2. -/
theorem c7_top_pairs_amended_w :
    ((("calm_under_pressure", "teamwork"), (1/2 : ℚ)).2 < 1 ∧
      (("calm_under_pressure", "teamwork"), (1/2 : ℚ)) ∈
        unstackEntries ["calm_under_pressure", "teamwork"]
          (fun c d => if c = d then 1 else 1/2) ∧
      (highCorrPairs ["calm_under_pressure", "teamwork"]
        (fun c d => if c = d then 1 else 1/2)).Pairwise (fun a b => b.2 < a.2) ∧
      (highCorrPairs ["calm_under_pressure", "teamwork"]
        (fun c d => if c = d then 1 else 1/2)).length ≤ 3) := by
  apply c7_top_pairs_amended
  have hne1 : ¬ ("calm_under_pressure" : String) = "teamwork" := by decide
  have hne2 : ¬ ("teamwork" : String) = "calm_under_pressure" := by decide
  norm_num [highCorrPairs, dropDupVals, dropDupValsAux, unstackEntries,
    entryRel, List.insertionSort, List.orderedInsert, List.flatMap,
    List.filter, if_neg hne1, if_neg hne2]
